import Mathlib

/-!
Shallow embedding of the `rate-limiter-lib` crate (src/rate-limiter-lib/src/lib.rs).

Modelling conventions:
* Timestamps (`chrono::DateTime<Utc>`) are integers counting milliseconds; a
  `chrono::Duration` is likewise an integer number of milliseconds, and
  `Duration::num_seconds` is truncating division by 1000 (`Int.tdiv`, which
  rounds toward zero exactly as chrono does).
* The `evmap` is modelled by its published read side (`read`, a bag of values
  per key — evmap is a multi-value map, `insert` appends to the value set) plus
  the oplog of writes not yet made visible to readers (`oplog`, what
  `WriteHandle::pending()` exposes).  `refresh` applies the oplog to the read
  side and clears it.  Reads (`get_one`, `contains_key`) — including reads made
  through the write handle, which derefs to a read handle — see only the
  published side.
* `Utc::now()` becomes an explicit `now : Int` argument of each operation that
  consults the clock.
* Each fallible store operation returns `Except ModelError Unit` paired with
  the post-state of the map (Rust mutates the map in place and returns a
  `Result`).
* The `DoublePriorityQueue<KeyType, DateTime<Utc>>` of the eviction loop is a
  list of (key, expiry) entries with `peekMin` choosing an entry of minimal
  priority; `push` updates the priority of an existing key, `remove` drops a
  key's entry, exactly as in the `priority_queue` crate.
-/

set_option autoImplicit false

/-- Error taxonomy of the store (`enum ModelError`). -/
inductive ModelError where
  | NotFound
  | AlreadyPresent
  | PastRateLimit (timeRemaining : Int)
  deriving DecidableEq, Repr

/-- Rust `pub type KeyType = String`. -/
abbrev KeyType := String

/-- Rust `pub type LimitType = i64`. -/
abbrev LimitType := Int

/-- Rust `pub struct StoredValue`, fields `count` and `ttl`; `ttl` is the optional absolute
expiry timestamp (milliseconds). -/
structure StoredValue where
  count : LimitType
  ttl : Option Int
  deriving DecidableEq, Repr

/-- An entry of the evmap write-handle oplog (`evmap::Operation`): `Add`
appends a value to a key's value set, `Empty` clears the key. -/
inductive Oper where
  | add (k : KeyType) (v : StoredValue)
  | empty (k : KeyType)
  deriving DecidableEq, Repr

/-- The key an oplog operation touches. -/
def keyOf : Oper → KeyType
  | .add k _ => k
  | .empty k => k

/-- The evmap: published read side (value bag per key; `[]` = key absent) and
the pending oplog. -/
structure EvMap where
  read : KeyType → List StoredValue
  oplog : List Oper

/-- Apply one oplog operation to the read side. -/
def applyOp (f : KeyType → List StoredValue) : Oper → KeyType → List StoredValue
  | .add k v => fun k' => if k' = k then f k' ++ [v] else f k'
  | .empty k => fun k' => if k' = k then [] else f k'

/-- Apply a whole oplog, oldest operation first. -/
def applyLog (l : List Oper) (f : KeyType → List StoredValue) : KeyType → List StoredValue :=
  l.foldl applyOp f

/-- Model of `WriteHandle::refresh`: publish all pending operations and clear the
oplog. -/
def refresh (m : EvMap) : EvMap :=
  { read := applyLog m.oplog m.read, oplog := [] }

/-- Model of `contains_key` as seen through the (read side of the) write handle. -/
def containsKey (m : EvMap) (k : KeyType) : Bool :=
  !(m.read k).isEmpty

namespace Store

/-- Model of `Store::get`: read through the reader handle; `get_one` yields the first
value of the published bag. Never errors. -/
def get (m : EvMap) (k : KeyType) : Except ModelError (Option StoredValue) :=
  .ok ((m.read k).head?)

/-- Model of `Store::upsert_stored_type`: empty the key, re-add the value, refresh. -/
def upsert_stored_type (m : EvMap) (k : KeyType) (v : StoredValue) :
    Except ModelError Unit × EvMap :=
  (.ok (), refresh { m with oplog := m.oplog ++ [.empty k, .add k v] })

/-- Model of `Store::insert`: compute `expiry = now + ttl` seconds, fail with
`AlreadyPresent` if the key is (publishedly) present, else append an `Add`
to the oplog.  No refresh. -/
def insert (m : EvMap) (k : KeyType) (count : LimitType) (ttl : Int) (now : Int) :
    Except ModelError Unit × EvMap :=
  let current_ttl := now + ttl * 1000
  if containsKey m k then
    (.error .AlreadyPresent, m)
  else
    (.ok (), { m with oplog := m.oplog ++ [.add k ⟨count, some current_ttl⟩] })

/-- Model of `Store::delete`: fail with `NotFound` if the key is absent, else append an
`Empty` to the oplog.  No refresh. -/
def delete (m : EvMap) (k : KeyType) : Except ModelError Unit × EvMap :=
  if !containsKey m k then
    (.error .NotFound, m)
  else
    (.ok (), { m with oplog := m.oplog ++ [.empty k] })

/-- Model of `chrono::Duration::num_seconds` on a millisecond count: whole seconds,
rounded toward zero. -/
def numSeconds (ms : Int) : Int := Int.tdiv ms 1000

/-- The `PastRateLimit` payload: `stored_value.ttl.map(|t| (t - now).num_seconds()).unwrap_or_default()`. -/
def timeRemaining (ttl : Option Int) (now : Int) : Int :=
  (ttl.map (fun t => numSeconds (t - now))).getD 0

/-- Model of `Store::inc_below_limit`: read the record; if present and below the limit,
upsert `count + 1` with the same stored ttl; if present at or above the limit,
fail with `PastRateLimit` without mutating; if absent, insert a fresh record
with count 1. -/
def inc_below_limit (m : EvMap) (k : KeyType) (limit : LimitType) (ttl : Int) (now : Int) :
    Except ModelError Unit × EvMap :=
  match get m k with
  | .error e => (.error e, m)
  | .ok (some stored_value) =>
    if stored_value.count < limit then
      upsert_stored_type m k { stored_value with count := stored_value.count + 1 }
    else
      (.error (.PastRateLimit (timeRemaining stored_value.ttl now)), m)
  | .ok none => insert m k 1 ttl now

end Store

deriving instance DecidableEq for Except

/-! The eviction loop of `Store::init`.  Its `DoublePriorityQueue` is modelled
as a list of (key, expiry-in-ms) entries. -/

/-- The eviction loop's ttl queue: (key, expiry) entries. -/
abbrev Queue := List (KeyType × Int)

/-- Priority lookup by key (`DoublePriorityQueue::get`). -/
def queueGet : Queue → KeyType → Option Int
  | [], _ => none
  | e :: es, k => if e.1 = k then some e.2 else queueGet es k

/-- Remove a key's entry (`DoublePriorityQueue::remove`). -/
def queueRemove (q : Queue) (k : KeyType) : Queue :=
  q.filter (fun e => decide (e.1 ≠ k))

/-- Model of `DoublePriorityQueue::push`: update the priority of an existing key, or
add a new entry. -/
def queuePush (q : Queue) (k : KeyType) (t : Int) : Queue :=
  if (queueGet q k).isSome then
    q.map (fun e => if e.1 = k then (k, t) else e)
  else
    q ++ [(k, t)]

/-- Model of `DoublePriorityQueue::peek_min`: an entry of minimal priority (the first
such, as a deterministic choice among ties). -/
def peekMin : Queue → Option (KeyType × Int)
  | [] => none
  | e :: es =>
    match peekMin es with
    | none => some e
    | some e2 => if e.2 ≤ e2.2 then some e else some e2

/-- Erase the first occurrence of an entry (what `pop_min` does to the entry
`peek_min` returned). -/
def eraseEntry : Queue → (KeyType × Int) → Queue
  | [], _ => []
  | x :: xs, e => if x = e then xs else x :: eraseEntry xs e

/-- One step of the drain phase: feed one pending operation into the queue
(`Add` pushes the expiry when there is one; `Empty` removes the key when the
queue holds it). -/
def drainOp (q : Queue) : Oper → Queue
  | .add k v =>
    match v.ttl with
    | some t => queuePush q k t
    | none => q
  | .empty k =>
    if (queueGet q k).isSome then queueRemove q k else q

/-- Drain the whole pending oplog into the queue, oldest operation first. -/
def drain (l : List Oper) (q : Queue) : Queue :=
  l.foldl drainOp q

/-- The eviction while-loop, with explicit fuel (each iteration pops one
entry, so `q.length` fuel is enough; the recursion is structural in the fuel
so that the definition computes):
`while next_ttl.is_some() && now > *next_ttl.unwrap().1 { empty key; pop_min }`. -/
def evictAux (now : Int) : Nat → EvMap → Queue → EvMap × Queue
  | 0, m, q => (m, q)
  | fuel + 1, m, q =>
    match peekMin q with
    | none => (m, q)
    | some e =>
      if now > e.2 then
        evictAux now fuel { m with oplog := m.oplog ++ [.empty e.1] } (eraseEntry q e)
      else
        (m, q)

/-- The eviction while-loop of one iteration of the background task. -/
def evictPhase (now : Int) (m : EvMap) (q : Queue) : EvMap × Queue :=
  evictAux now q.length m q

/-- State visible to the eviction loop: the map plus the ttl queue. -/
structure LoopState where
  map : EvMap
  queue : Queue

/-- One iteration of the background eviction loop of `Store::init`: drain the
pending oplog into the queue, evict everything already expired, refresh. -/
def loopIter (now : Int) (s : LoopState) : LoopState :=
  let q1 := drain s.map.oplog s.queue
  let r := evictPhase now s.map q1
  { map := refresh r.1, queue := r.2 }

/-- The state `Store::init` starts from: fresh evmap (the initial `refresh` is
a no-op on an empty oplog) and an empty ttl queue. -/
def initState : LoopState :=
  { map := { read := fun _ => [], oplog := [] }, queue := [] }

/-! A small language of the store's public operations, to speak about
sequences of calls. -/

/-- A public operation: one of the three mutating store calls, or one
iteration of the background eviction loop at a given clock reading. -/
inductive Op where
  | opInsert (k : KeyType) (c : LimitType) (ttl : Int) (now : Int)
  | opDelete (k : KeyType)
  | opInc (k : KeyType) (limit : LimitType) (ttl : Int) (now : Int)
  | opIter (now : Int)
  deriving Repr

/-- Execute one public operation (the store calls leave the queue alone; the
queue is only touched by the eviction loop). -/
def stepOp (s : LoopState) : Op → LoopState
  | .opInsert k c ttl now => { s with map := (Store.insert s.map k c ttl now).2 }
  | .opDelete k => { s with map := (Store.delete s.map k).2 }
  | .opInc k limit ttl now => { s with map := (Store.inc_below_limit s.map k limit ttl now).2 }
  | .opIter now => loopIter now s

/-- Execute a sequence of public operations. -/
def runRaw (s : LoopState) (l : List Op) : LoopState :=
  l.foldl stepOp s

/-- Execute one public operation immediately followed by an eviction-loop
iteration (a publish) at time `ou.2`. -/
def stepPub (s : LoopState) (ou : Op × Int) : LoopState :=
  loopIter ou.2 (stepOp s ou.1)

/-- Execute a sequence of publish-interleaved public operations. -/
def runPub (s : LoopState) (l : List (Op × Int)) : LoopState :=
  l.foldl stepPub s

/-- Repeated `inc_below_limit` calls on one key, collecting each call's
result. -/
def incIter (m : EvMap) (k : KeyType) (limit : LimitType) (ttl : Int) (now : Int) :
    Nat → List (Except ModelError Unit) × EvMap
  | 0 => ([], m)
  | j + 1 =>
    let r := Store.inc_below_limit m k limit ttl now
    let rest := incIter r.2 k limit ttl now j
    (r.1 :: rest.1, rest.2)

/-- Invariant maintained when every public operation is immediately published:
no pending operations, and every published bag holds at most one record. -/
def StoreInv (s : LoopState) : Prop :=
  s.map.oplog = [] ∧ ∀ k, (s.map.read k).length ≤ 1

/-- Shape of the map right after a single public store call made from an
`Inv` state: the oplog is empty, a single `Add` of a (publishedly) absent key,
or a single `Empty`. -/
def SmallLog (m : EvMap) : Prop :=
  m.oplog = [] ∨ (∃ k v, m.oplog = [Oper.add k v] ∧ m.read k = []) ∨ ∃ k, m.oplog = [Oper.empty k]

/-! Concrete states used to instantiate the theorems. -/

/-- A loop state whose single record and queue entry expire exactly at time 5. -/
def boundaryState : LoopState :=
  { map := { read := fun k => if k = "a" then [⟨1, some 5⟩] else [], oplog := [] },
    queue := [("a", 5)] }

/-- A published map holding one record for `"a"`: count 3, expiry 2000 ms. -/
def presentMap : EvMap :=
  { read := fun k => if k = "a" then [⟨3, some 2000⟩] else [], oplog := [] }

/-- A published map holding one record for `"a"` with no expiry. -/
def noTtlMap : EvMap :=
  { read := fun k => if k = "a" then [⟨2, none⟩] else [], oplog := [] }

/-- A published map with a record for `"a"` expiring at 100 ms, paired with
the matching queue entry. -/
def deleteState : LoopState :=
  { map := { read := fun k => if k = "a" then [⟨1, some 100⟩] else [], oplog := [] },
    queue := [("a", 100)] }

/-! Helper lemmas about the oplog semantics. -/

theorem applyLog_nil (f : KeyType → List StoredValue) : applyLog [] f = f := rfl

theorem applyLog_cons (op : Oper) (l : List Oper) (f : KeyType → List StoredValue) :
    applyLog (op :: l) f = applyLog l (applyOp f op) := rfl

theorem applyLog_append (l1 l2 : List Oper) (f : KeyType → List StoredValue) :
    applyLog (l1 ++ l2) f = applyLog l2 (applyLog l1 f) :=
  List.foldl_append _ _ _ _

theorem applyOp_skip (f : KeyType → List StoredValue) (op : Oper) (k : KeyType)
    (h : keyOf op ≠ k) : applyOp f op k = f k := by
  cases op with
  | add k0 v =>
    simp only [keyOf] at h
    show (if k = k0 then f k ++ [v] else f k) = f k
    rw [if_neg (fun hk => h hk.symm)]
  | empty k0 =>
    simp only [keyOf] at h
    show (if k = k0 then [] else f k) = f k
    rw [if_neg (fun hk => h hk.symm)]

theorem applyLog_skip (l : List Oper) (f : KeyType → List StoredValue) (k : KeyType)
    (h : ∀ op ∈ l, keyOf op ≠ k) : applyLog l f k = f k := by
  induction l generalizing f with
  | nil => rfl
  | cons op t ih =>
    rw [applyLog_cons, ih _ (fun o ho => h o (List.mem_cons_of_mem _ ho)),
      applyOp_skip _ _ _ (h op (List.mem_cons_self _ _))]

/-- An oplog consisting only of `Empty` operations can only shrink a bag. -/
theorem applyLog_empties_le (l : List Oper) (f : KeyType → List StoredValue) (k : KeyType)
    (h : ∀ op ∈ l, ∃ k0, op = Oper.empty k0) :
    (applyLog l f k).length ≤ (f k).length := by
  induction l generalizing f with
  | nil => exact le_rfl
  | cons op t ih =>
    obtain ⟨k0, rfl⟩ := h op (List.mem_cons_self _ _)
    rw [applyLog_cons]
    refine le_trans (ih _ (fun o ho => h o (List.mem_cons_of_mem _ ho))) ?_
    by_cases hk : k = k0 <;> simp [applyOp, hk]

/-- An oplog consisting only of `Empty` operations keeps an empty bag empty. -/
theorem applyLog_empties_keep_nil (l : List Oper) (f : KeyType → List StoredValue) (k : KeyType)
    (h : ∀ op ∈ l, ∃ k0, op = Oper.empty k0) (h0 : f k = []) :
    applyLog l f k = [] := by
  induction l generalizing f with
  | nil => exact h0
  | cons op t ih =>
    obtain ⟨k0, rfl⟩ := h op (List.mem_cons_self _ _)
    rw [applyLog_cons]
    refine ih _ (fun o ho => h o (List.mem_cons_of_mem _ ho)) ?_
    by_cases hk : k = k0 <;> simp [applyOp, hk, h0]

/-- An all-`Empty` oplog that mentions `k` empties `k`'s bag. -/
theorem applyLog_empties_mem (l : List Oper) (f : KeyType → List StoredValue) (k : KeyType)
    (h : ∀ op ∈ l, ∃ k0, op = Oper.empty k0) (hm : Oper.empty k ∈ l) :
    applyLog l f k = [] := by
  induction l generalizing f with
  | nil => cases hm
  | cons op t ih =>
    obtain ⟨k0, rfl⟩ := h op (List.mem_cons_self _ _)
    rw [applyLog_cons]
    by_cases hk : k0 = k
    · subst hk
      exact applyLog_empties_keep_nil _ _ _
        (fun o ho => h o (List.mem_cons_of_mem _ ho)) (by simp [applyOp])
    · rcases List.mem_cons.mp hm with heq | hmem
      · exact absurd (Oper.empty.inj heq.symm) hk
      · exact ih _ (fun o ho => h o (List.mem_cons_of_mem _ ho)) hmem

/-! Helper lemmas about the ttl queue. -/

theorem peekMin_none {q : Queue} (h : peekMin q = none) : q = [] := by
  cases q with
  | nil => rfl
  | cons e es =>
    exfalso
    simp only [peekMin] at h
    cases hx : peekMin es with
    | none => simp only [hx] at h; exact Option.noConfusion h
    | some e2 =>
      simp only [hx] at h
      by_cases hle : e.2 ≤ e2.2
      · rw [if_pos hle] at h; exact Option.noConfusion h
      · rw [if_neg hle] at h; exact Option.noConfusion h

theorem peekMin_mem {q : Queue} {e : KeyType × Int} (h : peekMin q = some e) : e ∈ q := by
  induction q generalizing e with
  | nil => cases h
  | cons x xs ih =>
    simp only [peekMin] at h
    cases hx : peekMin xs with
    | none =>
      simp only [hx] at h
      obtain rfl := Option.some.inj h
      exact List.mem_cons_self _ _
    | some e2 =>
      simp only [hx] at h
      by_cases hle : x.2 ≤ e2.2
      · rw [if_pos hle] at h
        obtain rfl := Option.some.inj h
        exact List.mem_cons_self _ _
      · rw [if_neg hle] at h
        obtain rfl := Option.some.inj h
        exact List.mem_cons_of_mem _ (ih hx)

theorem peekMin_le {q : Queue} {e : KeyType × Int} (h : peekMin q = some e) :
    ∀ x ∈ q, e.2 ≤ x.2 := by
  induction q generalizing e with
  | nil => cases h
  | cons x xs ih =>
    intro y hy
    simp only [peekMin] at h
    cases hx : peekMin xs with
    | none =>
      simp only [hx] at h
      obtain rfl := Option.some.inj h
      rcases List.mem_cons.mp hy with rfl | hmem
      · exact le_rfl
      · rw [peekMin_none hx] at hmem
        exact absurd hmem (List.not_mem_nil _)
    | some e2 =>
      simp only [hx] at h
      by_cases hle : x.2 ≤ e2.2
      · rw [if_pos hle] at h
        obtain rfl := Option.some.inj h
        rcases List.mem_cons.mp hy with rfl | hmem
        · exact le_rfl
        · exact le_trans hle (ih hx y hmem)
      · rw [if_neg hle] at h
        obtain rfl := Option.some.inj h
        rcases List.mem_cons.mp hy with rfl | hmem
        · exact le_of_lt (by omega)
        · exact ih hx y hmem

theorem eraseEntry_subset {q : Queue} {e x : KeyType × Int} (h : x ∈ eraseEntry q e) :
    x ∈ q := by
  induction q with
  | nil => cases h
  | cons y ys ih =>
    simp only [eraseEntry] at h
    by_cases hy : y = e
    · rw [if_pos hy] at h
      exact List.mem_cons_of_mem _ h
    · rw [if_neg hy] at h
      rcases List.mem_cons.mp h with rfl | hmem
      · exact List.mem_cons_self _ _
      · exact List.mem_cons_of_mem _ (ih hmem)

theorem mem_eraseEntry_of_ne {q : Queue} {e x : KeyType × Int} (hne : x ≠ e) :
    x ∈ eraseEntry q e ↔ x ∈ q := by
  induction q with
  | nil => simp [eraseEntry]
  | cons y ys ih =>
    simp only [eraseEntry]
    by_cases hy : y = e
    · rw [if_pos hy]
      subst hy
      simp [List.mem_cons, fun h : x = y => hne h]
    · rw [if_neg hy]
      simp [List.mem_cons, ih]

theorem eraseEntry_length {q : Queue} {e : KeyType × Int} (h : e ∈ q) :
    (eraseEntry q e).length + 1 = q.length := by
  induction q with
  | nil => cases h
  | cons y ys ih =>
    simp only [eraseEntry]
    by_cases hy : y = e
    · rw [if_pos hy]
      simp
    · rw [if_neg hy]
      rcases List.mem_cons.mp h with rfl | hmem
      · exact absurd rfl hy
      · simp only [List.length_cons]
        rw [← ih hmem]

theorem filter_eraseEntry (p : KeyType × Int → Bool) {q : Queue} {e : KeyType × Int}
    (hp : p e = false) : (eraseEntry q e).filter p = q.filter p := by
  induction q with
  | nil => rfl
  | cons y ys ih =>
    simp only [eraseEntry]
    by_cases hy : y = e
    · rw [if_pos hy]
      subst hy
      simp [List.filter, hp]
    · rw [if_neg hy]
      simp only [List.filter]
      cases p y <;> simp [ih]

theorem queueGet_eq_none {q : Queue} {k : KeyType} :
    queueGet q k = none ↔ ∀ p, (k, p) ∉ q := by
  induction q with
  | nil => simp [queueGet]
  | cons e es ih =>
    simp only [queueGet]
    by_cases he : e.1 = k
    · rw [if_pos he]
      constructor
      · intro h; cases h
      · intro h
        exact absurd (by rw [← he]; exact List.mem_cons_self _ _) (h e.2)
    · rw [if_neg he, ih]
      constructor
      · intro h p hp
        rcases List.mem_cons.mp hp with heq | hmem
        · exact he (congrArg Prod.fst heq.symm)
        · exact h p hmem
      · intro h p hp
        exact h p (List.mem_cons_of_mem _ hp)

theorem queueGet_queueRemove (q : Queue) (k : KeyType) :
    queueGet (queueRemove q k) k = none := by
  rw [queueGet_eq_none]
  intro p hp
  have := List.mem_filter.mp hp
  simp at this

theorem queueGet_filter_none {q : Queue} {k : KeyType} (p : KeyType × Int → Bool)
    (h : queueGet q k = none) : queueGet (q.filter p) k = none := by
  rw [queueGet_eq_none] at h ⊢
  intro t ht
  exact h t (List.mem_filter.mp ht).1

theorem mem_queuePush {q : Queue} {k : KeyType} {t : Int} {x : KeyType × Int}
    (h : x ∈ queuePush q k t) : x ∈ q ∨ x = (k, t) := by
  simp only [queuePush] at h
  split at h
  · rcases List.mem_map.mp h with ⟨e, he, heq⟩
    by_cases hk : e.1 = k
    · right; rw [if_pos hk] at heq; exact heq.symm
    · left; rw [if_neg hk] at heq; exact heq ▸ he
  · rcases List.mem_append.mp h with hmem | hmem
    · exact Or.inl hmem
    · exact Or.inr (by simpa using hmem)

theorem queuePush_of_not_mem {q : Queue} {k : KeyType} {t : Int}
    (h : ∀ p, (k, p) ∉ q) : queuePush q k t = q ++ [(k, t)] := by
  have : queueGet q k = none := queueGet_eq_none.mpr h
  simp [queuePush, this]

/-! Helper lemmas about the drain phase. -/

theorem drain_append (l1 l2 : List Oper) (q : Queue) :
    drain (l1 ++ l2) q = drain l2 (drain l1 q) :=
  List.foldl_append _ _ _ _

theorem drainOp_not_mem {q : Queue} {op : Oper} {k : KeyType}
    (hk : keyOf op ≠ k) (h : ∀ p, (k, p) ∉ q) : ∀ p, (k, p) ∉ drainOp q op := by
  intro p hp
  cases op with
  | add k0 v =>
    simp only [keyOf] at hk
    simp only [drainOp] at hp
    cases hv : v.ttl with
    | none => rw [hv] at hp; exact h p hp
    | some t =>
      rw [hv] at hp
      rcases mem_queuePush hp with hmem | heq
      · exact h p hmem
      · exact hk (congrArg Prod.fst heq).symm
  | empty k0 =>
    simp only [drainOp] at hp
    split at hp
    · exact h p (List.mem_filter.mp hp).1
    · exact h p hp

theorem drain_not_mem {l : List Oper} {q : Queue} {k : KeyType}
    (hl : ∀ op ∈ l, keyOf op ≠ k) (h : ∀ p, (k, p) ∉ q) : ∀ p, (k, p) ∉ drain l q := by
  induction l generalizing q with
  | nil => exact h
  | cons op t ih =>
    exact ih (fun o ho => hl o (List.mem_cons_of_mem _ ho))
      (drainOp_not_mem (hl op (List.mem_cons_self _ _)) h)

theorem queueGet_drainOp_empty (q : Queue) (k : KeyType) :
    queueGet (drainOp q (.empty k)) k = none := by
  simp only [drainOp]
  by_cases h : (queueGet q k).isSome
  · rw [if_pos h]
    exact queueGet_queueRemove q k
  · rw [if_neg h]
    cases hq : queueGet q k with
    | none => rfl
    | some t => exact absurd (by rw [hq]; rfl) h

/-! Characterization of the eviction while-loop. -/

theorem evictAux_spec (now : Int) :
    ∀ (fuel : Nat) (m : EvMap) (q : Queue), q.length ≤ fuel →
    (evictAux now fuel m q).2 = q.filter (fun e => decide (now ≤ e.2)) ∧
    ∃ l, (evictAux now fuel m q).1.read = m.read ∧
      (evictAux now fuel m q).1.oplog = m.oplog ++ l ∧
      (∀ op ∈ l, ∃ k0, op = Oper.empty k0) ∧
      (∀ k, Oper.empty k ∈ l ↔ ∃ p, (k, p) ∈ q ∧ p < now) := by
  intro fuel
  induction fuel with
  | zero =>
    intro m q hq
    have : q = [] := List.length_eq_zero.mp (Nat.le_zero.mp hq)
    subst this
    exact ⟨rfl, [], rfl, by simp [evictAux], by simp, by simp [evictAux]⟩
  | succ fuel ih =>
    intro m q hq
    cases hpeek : peekMin q with
    | none =>
      have : q = [] := peekMin_none hpeek
      subst this
      exact ⟨by simp [evictAux, hpeek], [], by simp [evictAux, hpeek], by simp [evictAux, hpeek],
        by simp, by simp⟩
    | some e =>
      have hmem : e ∈ q := peekMin_mem hpeek
      by_cases hlt : now > e.2
      · have hstep : evictAux now (fuel + 1) m q =
            evictAux now fuel { m with oplog := m.oplog ++ [.empty e.1] } (eraseEntry q e) := by
          simp [evictAux, hpeek, hlt]
        have hlen : (eraseEntry q e).length ≤ fuel := by
          have := eraseEntry_length hmem
          omega
        obtain ⟨hq2, l', hread, hop, hemp, hiff⟩ :=
          ih { m with oplog := m.oplog ++ [.empty e.1] } (eraseEntry q e) hlen
        refine ⟨?_, Oper.empty e.1 :: l', ?_, ?_, ?_, ?_⟩
        · rw [hstep, hq2, filter_eraseEntry _ (by simp; omega)]
        · rw [hstep, hread]
        · rw [hstep, hop]; simp
        · intro op hop2
          rcases List.mem_cons.mp hop2 with rfl | hmem2
          · exact ⟨e.1, rfl⟩
          · exact hemp op hmem2
        · intro k
          constructor
          · intro hk
            rcases List.mem_cons.mp hk with heq | hmem2
            · have hke : k = e.1 := Oper.empty.inj heq
              subst hke
              exact ⟨e.2, by rw [Prod.mk.eta]; exact hmem, hlt⟩
            · obtain ⟨p, hp, hpn⟩ := (hiff k).mp hmem2
              exact ⟨p, eraseEntry_subset hp, hpn⟩
          · rintro ⟨p, hp, hpn⟩
            by_cases hpe : (k, p) = e
            · exact List.mem_cons.mpr (Or.inl (by rw [← hpe]))
            · exact List.mem_cons.mpr (Or.inr ((hiff k).mpr
                ⟨p, (mem_eraseEntry_of_ne hpe).mpr hp, hpn⟩))
      · have hstep : evictAux now (fuel + 1) m q = (m, q) := by
          simp [evictAux, hpeek, hlt]
        refine ⟨?_, [], by rw [hstep], by rw [hstep]; simp, by simp, ?_⟩
        · rw [hstep]
          exact (List.filter_eq_self.mpr (fun x hx => by
            have := peekMin_le hpeek x hx
            simp; omega)).symm
        · intro k
          simp only [List.not_mem_nil, false_iff]
          rintro ⟨p, hp, hpn⟩
          have := peekMin_le hpeek (k, p) hp
          omega

theorem evictPhase_spec (now : Int) (m : EvMap) (q : Queue) :
    (evictPhase now m q).2 = q.filter (fun e => decide (now ≤ e.2)) ∧
    ∃ l, (evictPhase now m q).1.read = m.read ∧
      (evictPhase now m q).1.oplog = m.oplog ++ l ∧
      (∀ op ∈ l, ∃ k0, op = Oper.empty k0) ∧
      (∀ k, Oper.empty k ∈ l ↔ ∃ p, (k, p) ∈ q ∧ p < now) :=
  evictAux_spec now q.length m q le_rfl

/-! Effect of a loop iteration on a key whose last pending operation is an
`Empty` (the shape `Store::delete` leaves behind). -/

theorem loopIter_read_of_last_empty (mbase : EvMap) (q : Queue) (k : KeyType) (now : Int) :
    (loopIter now { map := { mbase with oplog := mbase.oplog ++ [.empty k] }, queue := q }).map.read k
      = [] := by
  obtain ⟨hq, l, hread, hop, hemp, hiff⟩ :=
    evictPhase_spec now { mbase with oplog := mbase.oplog ++ [.empty k] }
      (drain (mbase.oplog ++ [.empty k]) q)
  show (refresh (evictPhase now { mbase with oplog := mbase.oplog ++ [.empty k] }
      (drain (mbase.oplog ++ [.empty k]) q)).1).read k = []
  simp only [refresh]
  rw [hop, hread]
  have h1 : applyLog (mbase.oplog ++ [Oper.empty k]) mbase.read k = [] := by
    rw [applyLog_append]
    simp [applyLog, applyOp]
  rw [applyLog_append]
  exact applyLog_empties_keep_nil _ _ _ hemp h1

theorem loopIter_queueGet_of_last_empty (mbase : EvMap) (q : Queue) (k : KeyType) (now : Int) :
    queueGet (loopIter now
      { map := { mbase with oplog := mbase.oplog ++ [.empty k] }, queue := q }).queue k = none := by
  obtain ⟨hq, l, hread, hop, hemp, hiff⟩ :=
    evictPhase_spec now { mbase with oplog := mbase.oplog ++ [.empty k] }
      (drain (mbase.oplog ++ [.empty k]) q)
  show queueGet (evictPhase now { mbase with oplog := mbase.oplog ++ [.empty k] }
      (drain (mbase.oplog ++ [.empty k]) q)).2 k = none
  rw [hq]
  apply queueGet_filter_none
  rw [drain_append]
  exact queueGet_drainOp_empty _ k

/-- Effect of a loop iteration on a key whose only pending operation is a
fresh `Add` with an expiry not yet due (the shape the `inc_below_limit`
insert path leaves behind): the record is published and survives. -/
theorem loopIter_read_of_last_add (mbase : EvMap) (q : Queue) (k : KeyType) (v : StoredValue)
    (t u : Int) (hv : v.ttl = some t) (hut : u ≤ t)
    (habs : mbase.read k = [])
    (hlog : ∀ op ∈ mbase.oplog, keyOf op ≠ k)
    (hque : ∀ p, (k, p) ∉ q) :
    (loopIter u { map := { mbase with oplog := mbase.oplog ++ [.add k v] }, queue := q }).map.read k
      = [v] ∧
    (loopIter u { map := { mbase with oplog := mbase.oplog ++ [.add k v] }, queue := q }).map.oplog
      = [] := by
  have hQ : ∀ p, (k, p) ∉ drain mbase.oplog q := drain_not_mem hlog hque
  have hq1 : drain (mbase.oplog ++ [Oper.add k v]) q = drain mbase.oplog q ++ [(k, t)] := by
    rw [drain_append]
    show drainOp (drain mbase.oplog q) (Oper.add k v) = _
    simp only [drainOp, hv]
    exact queuePush_of_not_mem hQ
  obtain ⟨hq, l, hread, hop, hemp, hiff⟩ :=
    evictPhase_spec u { mbase with oplog := mbase.oplog ++ [.add k v] }
      (drain (mbase.oplog ++ [Oper.add k v]) q)
  have hkl : Oper.empty k ∉ l := by
    intro hmem
    obtain ⟨p, hp, hpu⟩ := (hiff k).mp hmem
    rw [hq1] at hp
    rcases List.mem_append.mp hp with hmem2 | hmem2
    · exact hQ p hmem2
    · have hpt : p = t := by simpa using hmem2
      omega
  have hlk : ∀ op ∈ l, keyOf op ≠ k := by
    intro op hopmem hkeq
    obtain ⟨k0, rfl⟩ := hemp op hopmem
    simp only [keyOf] at hkeq
    exact hkl (hkeq ▸ hopmem)
  constructor
  · show (refresh (evictPhase u { mbase with oplog := mbase.oplog ++ [.add k v] }
        (drain (mbase.oplog ++ [Oper.add k v]) q)).1).read k = [v]
    simp only [refresh]
    rw [hop, hread, applyLog_append, applyLog_skip _ _ _ hlk]
    show applyLog (mbase.oplog ++ [Oper.add k v]) mbase.read k = [v]
    rw [applyLog_append]
    have hbase : applyLog mbase.oplog mbase.read k = [] := by
      rw [applyLog_skip _ _ _ hlog, habs]
    have hone : applyLog [Oper.add k v] (applyLog mbase.oplog mbase.read) k
        = applyLog mbase.oplog mbase.read k ++ [v] := by
      show applyOp (applyLog mbase.oplog mbase.read) (Oper.add k v) k = _
      simp [applyOp]
    rw [hone, hbase]
    rfl
  · rfl

/-- Repeated increments from a published single-record state: every call
succeeds, the count goes up by one per call and the stored ttl never
changes. -/
theorem incIter_spec (k : KeyType) (limit ttl now : Int) (o : Option Int) :
    ∀ (j : Nat) (m : EvMap) (c : Int), m.read k = [⟨c, o⟩] → m.oplog = [] →
      c + j ≤ limit →
      (∀ r ∈ (incIter m k limit ttl now j).1, r = .ok ()) ∧
      (incIter m k limit ttl now j).2.read k = [⟨c + j, o⟩] ∧
      (incIter m k limit ttl now j).2.oplog = [] := by
  intro j
  induction j with
  | zero =>
    intro m c hread hlog _
    refine ⟨by simp [incIter], ?_, by simpa [incIter] using hlog⟩
    simpa [incIter] using hread
  | succ j ih =>
    intro m c hread hlog hle
    have hget : Store.get m k = .ok (some ⟨c, o⟩) := by simp [Store.get, hread]
    have hlt : c < limit := by
      have : ((j : Int) + 1) ≥ 1 := by omega
      push_cast at hle
      omega
    have hstep : Store.inc_below_limit m k limit ttl now
        = Store.upsert_stored_type m k ⟨c + 1, o⟩ := by
      simp [Store.inc_below_limit, hget, hlt]
    have hread2 : (Store.inc_below_limit m k limit ttl now).2.read k = [⟨c + 1, o⟩] := by
      rw [hstep]
      simp only [Store.upsert_stored_type, refresh, hlog]
      simp [applyLog, applyOp]
    have hlog2 : (Store.inc_below_limit m k limit ttl now).2.oplog = [] := by
      rw [hstep]
      rfl
    have hres : (Store.inc_below_limit m k limit ttl now).1 = .ok () := by
      rw [hstep]
      rfl
    obtain ⟨ha, hb, hc2⟩ := ih (Store.inc_below_limit m k limit ttl now).2 (c + 1)
      hread2 hlog2 (by push_cast at hle ⊢; omega)
    refine ⟨?_, ?_, hc2⟩
    · intro r hr
      simp only [incIter] at hr
      rcases List.mem_cons.mp hr with rfl | hm
      · exact hres
      · exact ha r hm
    · have harith : c + ((j + 1 : Nat) : Int) = (c + 1) + (j : Int) := by push_cast; ring
      show (incIter (Store.inc_below_limit m k limit ttl now).2 k limit ttl now j).2.read k
        = [⟨c + ((j + 1 : Nat) : Int), o⟩]
      rw [harith]
      exact hb

/-! Preservation of the one-record-per-key invariant when every public
operation is immediately published. -/

theorem storeInv_loopIter (now : Int) (s : LoopState) (hshape : SmallLog s.map)
    (hlen : ∀ k, (s.map.read k).length ≤ 1) : StoreInv (loopIter now s) := by
  obtain ⟨hq, l, hread, hop, hemp, hiff⟩ :=
    evictPhase_spec now s.map (drain s.map.oplog s.queue)
  constructor
  · rfl
  · intro k
    show ((refresh (evictPhase now s.map (drain s.map.oplog s.queue)).1).read k).length ≤ 1
    simp only [refresh]
    rw [hop, hread, applyLog_append]
    refine le_trans (applyLog_empties_le _ _ _ hemp) ?_
    rcases hshape with h0 | ⟨k0, v, hl, hr⟩ | ⟨k0, hl⟩
    · rw [h0]
      exact hlen k
    · rw [hl]
      by_cases hk : k = k0
      · subst hk
        simp [applyLog, applyOp, hr]
      · simp only [applyLog, List.foldl]
        rw [applyOp_skip _ _ _ (by simpa [keyOf] using fun h : k0 = k => hk h.symm)]
        exact hlen k
    · rw [hl]
      by_cases hk : k = k0
      · subst hk
        simp [applyLog, applyOp]
      · simp only [applyLog, List.foldl]
        rw [applyOp_skip _ _ _ (by simpa [keyOf] using fun h : k0 = k => hk h.symm)]
        exact hlen k

theorem smallLog_stepOp (s : LoopState) (op : Op) (h : StoreInv s) :
    SmallLog (stepOp s op).map ∧ ∀ k, ((stepOp s op).map.read k).length ≤ 1 := by
  obtain ⟨hlog, hlen⟩ := h
  cases op with
  | opInsert k c ttl now =>
    by_cases hk : containsKey s.map k = true
    · refine ⟨Or.inl ?_, fun k1 => ?_⟩
      · simp [stepOp, Store.insert, hk, hlog]
      · simp only [stepOp, Store.insert, hk, if_pos]
        exact hlen k1
    · simp only [Bool.not_eq_true] at hk
      have hr : s.map.read k = [] := by
        simpa [containsKey] using hk
      refine ⟨Or.inr (Or.inl ⟨k, ⟨c, some (now + ttl * 1000)⟩, ?_, ?_⟩), fun k1 => ?_⟩
      · simp [stepOp, Store.insert, hk, hlog]
      · simpa [stepOp, Store.insert, hk] using hr
      · simp only [stepOp, Store.insert, hk]
        exact hlen k1
  | opDelete k =>
    by_cases hk : containsKey s.map k = true
    · refine ⟨Or.inr (Or.inr ⟨k, ?_⟩), fun k1 => ?_⟩
      · simp [stepOp, Store.delete, hk, hlog]
      · simp only [stepOp, Store.delete, hk]
        exact hlen k1
    · simp only [Bool.not_eq_true] at hk
      refine ⟨Or.inl ?_, fun k1 => ?_⟩
      · simp [stepOp, Store.delete, hk, hlog]
      · simp only [stepOp, Store.delete, hk]
        exact hlen k1
  | opInc k limit ttl now =>
    cases hh : (s.map.read k).head? with
    | none =>
      have hr : s.map.read k = [] := List.head?_eq_none_iff.mp hh
      have hk : containsKey s.map k = false := by simp [containsKey, hr]
      refine ⟨Or.inr (Or.inl ⟨k, ⟨1, some (now + ttl * 1000)⟩, ?_, ?_⟩), fun k1 => ?_⟩
      · simp [stepOp, Store.inc_below_limit, Store.get, hh, Store.insert, hk, hlog]
      · simpa [stepOp, Store.inc_below_limit, Store.get, hh, Store.insert, hk] using hr
      · simp only [stepOp, Store.inc_below_limit, Store.get, hh, Store.insert, hk]
        exact hlen k1
    | some sv =>
      by_cases hlt : sv.count < limit
      · refine ⟨Or.inl ?_, fun k1 => ?_⟩
        · simp [stepOp, Store.inc_below_limit, Store.get, hh, hlt, Store.upsert_stored_type,
            refresh]
        · simp only [stepOp, Store.inc_below_limit, Store.get, hh, if_pos hlt,
            Store.upsert_stored_type, refresh, hlog]
          by_cases hk1 : k1 = k
          · subst hk1
            simp [applyLog, applyOp]
          · simp only [applyLog, List.foldl]
            rw [applyOp_skip _ _ _ (by simpa [keyOf] using fun h : k = k1 => hk1 h.symm),
              applyOp_skip _ _ _ (by simpa [keyOf] using fun h : k = k1 => hk1 h.symm)]
            exact hlen k1
      · refine ⟨Or.inl ?_, fun k1 => ?_⟩
        · simp [stepOp, Store.inc_below_limit, Store.get, hh, hlt, hlog]
        · simp only [stepOp, Store.inc_below_limit, Store.get, hh, if_neg hlt]
          exact hlen k1
  | opIter now =>
    have := storeInv_loopIter now s (Or.inl hlog) hlen
    exact ⟨Or.inl this.1, this.2⟩

theorem storeInv_stepPub (s : LoopState) (ou : Op × Int) (h : StoreInv s) :
    StoreInv (stepPub s ou) := by
  obtain ⟨hs, hl⟩ := smallLog_stepOp s ou.1 h
  exact storeInv_loopIter ou.2 _ hs hl

theorem storeInv_runPub (l : List (Op × Int)) : ∀ s, StoreInv s → StoreInv (runPub s l) := by
  induction l with
  | nil => exact fun s h => h
  | cons x xs ih => exact fun s h => ih _ (storeInv_stepPub s x h)

theorem storeInv_initState : StoreInv initState :=
  ⟨rfl, fun _ => by simp [initState]⟩

/-! Claim theorems. -/

/-- C2: when the stored count of a key has reached the limit, the next
`inc_below_limit` within the window (current time between the window start
`t0` and the stored expiry `t0 + ttl` seconds) fails with
`PastRateLimit s`, where `s` is the stored expiry minus the current time in
whole seconds, and `0 ≤ s ≤ ttl`. -/
theorem c2_past_rate_limit_seconds (m : EvMap) (k : KeyType) (limit ttl t0 now c : Int)
    (hget : Store.get m k = .ok (some ⟨c, some (t0 + ttl * 1000)⟩))
    (hc : limit ≤ c) (h1 : t0 ≤ now) (h2 : now ≤ t0 + ttl * 1000) :
    (Store.inc_below_limit m k limit ttl now).1
        = .error (.PastRateLimit (Int.tdiv (t0 + ttl * 1000 - now) 1000)) ∧
    0 ≤ Int.tdiv (t0 + ttl * 1000 - now) 1000 ∧
    Int.tdiv (t0 + ttl * 1000 - now) 1000 ≤ ttl := by
  have hnn : (0 : Int) ≤ t0 + ttl * 1000 - now := by omega
  have htd : Int.tdiv (t0 + ttl * 1000 - now) 1000 = (t0 + ttl * 1000 - now) / 1000 :=
    Int.tdiv_eq_ediv hnn (by norm_num)
  have hnl : ¬ c < limit := by omega
  refine ⟨?_, ?_, ?_⟩
  · simp [Store.inc_below_limit, hget, hnl, Store.timeRemaining, Store.numSeconds]
  · rw [htd]
    exact Int.ediv_nonneg hnn (by norm_num)
  · rw [htd]
    calc (t0 + ttl * 1000 - now) / 1000 ≤ ttl * 1000 / 1000 :=
          Int.ediv_le_ediv (by norm_num) (by omega)
      _ = ttl := Int.mul_ediv_cancel _ (by norm_num)

/-- C2 witness: concrete instance, `limit = count = 3`, window `[0, 2000)` ms,
call at 500 ms reports `1` second remaining. -/
theorem c2_witness :
    Store.get presentMap "a" = .ok (some ⟨3, some (0 + 2 * 1000)⟩) ∧
    ((Store.inc_below_limit presentMap "a" 3 2 500).1
        = .error (.PastRateLimit (Int.tdiv (0 + 2 * 1000 - 500) 1000)) ∧
      0 ≤ Int.tdiv (0 + 2 * 1000 - 500) 1000 ∧
      Int.tdiv (0 + 2 * 1000 - 500) 1000 ≤ 2) :=
  ⟨by decide, c2_past_rate_limit_seconds presentMap "a" 3 2 0 500 3
    (by decide) (by decide) (by decide) (by decide)⟩

/-- C3 (amended): in each eviction-loop iteration, after draining the pending
oplog, exactly the queue entries with expiry strictly below the current time
are popped and their keys removed from the map; an entry whose expiry is
greater than or equal to now — in particular equal to now — stays in the
queue and is not evicted. -/
theorem c3_eviction_strict (now : Int) (s : LoopState) :
    (loopIter now s).queue
        = (drain s.map.oplog s.queue).filter (fun e => decide (now ≤ e.2)) ∧
    (∀ k p, (k, p) ∈ drain s.map.oplog s.queue → p < now →
      (loopIter now s).map.read k = []) ∧
    (∀ k p, (k, p) ∈ drain s.map.oplog s.queue → now ≤ p →
      (k, p) ∈ (loopIter now s).queue) := by
  obtain ⟨hq, l, hread, hop, hemp, hiff⟩ :=
    evictPhase_spec now s.map (drain s.map.oplog s.queue)
  refine ⟨hq, ?_, ?_⟩
  · intro k p hkp hpn
    show (refresh (evictPhase now s.map (drain s.map.oplog s.queue)).1).read k = []
    simp only [refresh]
    rw [hop, hread, applyLog_append]
    exact applyLog_empties_mem _ _ _ hemp ((hiff k).mpr ⟨p, hkp, hpn⟩)
  · intro k p hkp hpn
    show (k, p) ∈ (evictPhase now s.map (drain s.map.oplog s.queue)).2
    rw [hq]
    exact List.mem_filter.mpr ⟨hkp, by simpa using hpn⟩

/-- C3 counterexample: the claim as stated says an entry whose expiry equals
the current time is evicted; in the code the while-loop condition is
`Utc::now() > expiry` (strict), so at `now = 5` the entry `("a", 5)` is
neither popped from the queue nor removed from the map. -/
theorem c3_counterexample :
    (loopIter 5 boundaryState).queue = [("a", 5)] ∧
    (loopIter 5 boundaryState).map.read "a" = [⟨1, some 5⟩] ∧
    (loopIter 5 boundaryState).map.read "a" ≠ [] :=
  ⟨by decide, by decide, by decide⟩

/-- C3 witness: at `now = 7` the entry `("a", 5)` (expiry strictly below now)
is evicted from the map. -/
theorem c3_witness :
    ("a", (5 : Int)) ∈ drain boundaryState.map.oplog boundaryState.queue ∧ (5 : Int) < 7 ∧
    (loopIter 7 boundaryState).map.read "a" = [] :=
  ⟨by decide, by decide, (c3_eviction_strict 7 boundaryState).2.1 "a" 5 (by decide) (by decide)⟩

/-- C4 (amended): `delete` on an absent key returns `NotFound` and changes
nothing; `delete` on a present key returns `Ok` and, once the next
eviction-loop iteration has run (publishing the pending removal and draining
it into the queue), `get` returns `None` and the key is absent from the
expiry queue. -/
theorem c4_delete_then_publish (s : LoopState) (k : KeyType) (now : Int) :
    (containsKey s.map k = false →
      (Store.delete s.map k).1 = .error .NotFound ∧ (Store.delete s.map k).2 = s.map) ∧
    (containsKey s.map k = true →
      (Store.delete s.map k).1 = .ok () ∧
      Store.get (loopIter now { s with map := (Store.delete s.map k).2 }).map k = .ok none ∧
      queueGet (loopIter now { s with map := (Store.delete s.map k).2 }).queue k = none) := by
  constructor
  · intro h
    simp [Store.delete, h]
  · intro h
    have hdel : Store.delete s.map k
        = (.ok (), { s.map with oplog := s.map.oplog ++ [.empty k] }) := by
      simp [Store.delete, h]
    refine ⟨by rw [hdel], ?_, ?_⟩
    · rw [hdel]
      have := loopIter_read_of_last_empty s.map s.queue k now
      simp only [Store.get]
      rw [show ({ s with map := { s.map with oplog := s.map.oplog ++ [.empty k] } } : LoopState)
          = { map := { s.map with oplog := s.map.oplog ++ [.empty k] }, queue := s.queue } from rfl,
        this]
      rfl
    · rw [hdel]
      exact loopIter_queueGet_of_last_empty s.map s.queue k now

/-- C4 counterexample: the claim as stated promises that a `get` following a
successful `delete` returns `None`; but `delete` only appends a pending
`Empty` without refreshing, so before the next publish `get` still returns
the old record. -/
theorem c4_counterexample :
    (Store.delete deleteState.map "a").1 = .ok () ∧
    Store.get (Store.delete deleteState.map "a").2 "a" = .ok (some ⟨1, some 100⟩) ∧
    Store.get (Store.delete deleteState.map "a").2 "a" ≠ .ok none :=
  ⟨by decide, by decide, by decide⟩

/-- C4 witness: concrete present key; after delete and one loop iteration the
record and its queue entry are gone. -/
theorem c4_witness :
    containsKey deleteState.map "a" = true ∧
    ((Store.delete deleteState.map "a").1 = .ok () ∧
      Store.get (loopIter 0 { deleteState with map := (Store.delete deleteState.map "a").2 }).map "a"
        = .ok none ∧
      queueGet (loopIter 0 { deleteState with map := (Store.delete deleteState.map "a").2 }).queue "a"
        = none) :=
  ⟨by decide, (c4_delete_then_publish deleteState "a" 0).2 (by decide)⟩

/-- C6: `insert` returns `AlreadyPresent` exactly when the key is present in
the published map, leaving the state unchanged in that case; on an absent key
it returns `Ok` and appends the record with the given count and expiry
`now + ttl` seconds. -/
theorem c6_insert_spec (m : EvMap) (k : KeyType) (c ttl now : Int) :
    ((Store.insert m k c ttl now).1 = .error .AlreadyPresent ↔ containsKey m k = true) ∧
    (containsKey m k = true → (Store.insert m k c ttl now).2 = m) ∧
    (containsKey m k = false →
      (Store.insert m k c ttl now).1 = .ok () ∧
      (Store.insert m k c ttl now).2
        = { m with oplog := m.oplog ++ [.add k ⟨c, some (now + ttl * 1000)⟩] }) := by
  by_cases h : containsKey m k = true
  · simp [Store.insert, h]
  · simp only [Bool.not_eq_true] at h
    simp [Store.insert, h]

/-- C6 witness: inserting a fresh key appends the expected record. -/
theorem c6_witness :
    containsKey initState.map "a" = false ∧
    ((Store.insert initState.map "a" 4 7 100).1 = .ok () ∧
      (Store.insert initState.map "a" 4 7 100).2
        = { initState.map with
            oplog := initState.map.oplog ++ [.add "a" ⟨4, some (100 + 7 * 1000)⟩] }) :=
  ⟨by decide, (c6_insert_spec initState.map "a" 4 7 100).2.2 (by decide)⟩

/-- C7: a successful increment on a present key below the limit replaces the
record by one with `count + 1` and the same stored expiry (the window is not
extended). -/
theorem c7_increment_preserves_expiry (m : EvMap) (k : KeyType) (limit ttl now : Int)
    (sv : StoredValue) (hget : Store.get m k = .ok (some sv)) (hlt : sv.count < limit) :
    (Store.inc_below_limit m k limit ttl now).1 = .ok () ∧
    Store.get (Store.inc_below_limit m k limit ttl now).2 k
      = .ok (some ⟨sv.count + 1, sv.ttl⟩) := by
  simp only [Store.inc_below_limit, hget, if_pos hlt]
  refine ⟨rfl, ?_⟩
  simp only [Store.upsert_stored_type, refresh, Store.get]
  rw [applyLog_append]
  simp [applyLog, applyOp]

/-- C7 witness: incrementing `"a"` (count 3, limit 5) keeps the expiry 2000. -/
theorem c7_witness :
    Store.get presentMap "a" = .ok (some ⟨3, some 2000⟩) ∧ (3 : Int) < 5 ∧
    ((Store.inc_below_limit presentMap "a" 5 2 500).1 = .ok () ∧
      Store.get (Store.inc_below_limit presentMap "a" 5 2 500).2 "a"
        = .ok (some ⟨3 + 1, some 2000⟩)) :=
  ⟨by decide, by decide,
    c7_increment_preserves_expiry presentMap "a" 5 2 500 ⟨3, some 2000⟩ (by decide) (by decide)⟩

/-- C8: whenever `inc_below_limit` returns `PastRateLimit`, the store state is
exactly what it was before the call — no record is added, removed or modified
and nothing is published. -/
theorem c8_past_rate_limit_pure (m : EvMap) (k : KeyType) (limit ttl now srem : Int)
    (h : (Store.inc_below_limit m k limit ttl now).1 = .error (.PastRateLimit srem)) :
    (Store.inc_below_limit m k limit ttl now).2 = m := by
  cases hk : (m.read k).head? with
  | none =>
    exfalso
    have hnil : m.read k = [] := List.head?_eq_none_iff.mp hk
    simp [Store.inc_below_limit, Store.get, hk, Store.insert, containsKey, hnil] at h
  | some sv =>
    by_cases hlt : sv.count < limit
    · exfalso
      simp [Store.inc_below_limit, Store.get, hk, if_pos hlt, Store.upsert_stored_type] at h
    · simp [Store.inc_below_limit, Store.get, hk, if_neg hlt]

/-- C8 witness: the rejected fourth increment leaves the map untouched. -/
theorem c8_witness :
    (Store.inc_below_limit presentMap "a" 3 2 500).1 = .error (.PastRateLimit 1) ∧
    (Store.inc_below_limit presentMap "a" 3 2 500).2 = presentMap :=
  ⟨by decide, c8_past_rate_limit_pure presentMap "a" 3 2 500 1 (by decide)⟩

/-- C9: if the stored record has no expiry (`ttl = None`) and the count has
reached the limit, `inc_below_limit` reports `PastRateLimit 0` — the i64
default stands in for the missing expiry. -/
theorem c9_no_ttl_zero_seconds (m : EvMap) (k : KeyType) (limit ttl now c : Int)
    (hget : Store.get m k = .ok (some ⟨c, none⟩)) (hc : limit ≤ c) :
    (Store.inc_below_limit m k limit ttl now).1 = .error (.PastRateLimit 0) := by
  have hnl : ¬ c < limit := by omega
  simp [Store.inc_below_limit, hget, hnl, Store.timeRemaining]

/-- C9 witness: record without expiry at the limit reports zero seconds. -/
theorem c9_witness :
    Store.get noTtlMap "a" = .ok (some ⟨2, none⟩) ∧ (2 : Int) ≤ 2 ∧
    (Store.inc_below_limit noTtlMap "a" 2 5 100).1 = .error (.PastRateLimit 0) :=
  ⟨by decide, by decide, c9_no_ttl_zero_seconds noTtlMap "a" 2 5 100 2 (by decide) (by decide)⟩

/-- C10: `inc_below_limit` never returns `NotFound` or `AlreadyPresent`: its
result is either `Ok` or some `PastRateLimit`. -/
theorem c10_error_range (m : EvMap) (k : KeyType) (limit ttl now : Int) :
    (Store.inc_below_limit m k limit ttl now).1 = .ok () ∨
    ∃ srem, (Store.inc_below_limit m k limit ttl now).1 = .error (.PastRateLimit srem) := by
  cases hk : (m.read k).head? with
  | none =>
    left
    have hnil : m.read k = [] := List.head?_eq_none_iff.mp hk
    simp [Store.inc_below_limit, Store.get, hk, Store.insert, containsKey, hnil]
  | some sv =>
    by_cases hlt : sv.count < limit
    · left
      simp [Store.inc_below_limit, Store.get, hk, hlt, Store.upsert_stored_type]
    · right
      refine ⟨Store.timeRemaining sv.ttl now, ?_⟩
      simp [Store.inc_below_limit, Store.get, hk, hlt]

/-- C1 (amended): for a key `k` not previously present (absent from the
published map, the pending oplog and the queue) and `1 ≤ n ≤ limit`, a first
`inc_below_limit` at `t0` followed by one eviction-loop iteration (the publish,
at any time `u` within the window) and then `n - 1` further calls: every call
returns `Ok`, the first call creates the record with count 1 and expiry
`t0 + ttl` seconds, and after the `n`-th call the stored count is `n`.  (The
claim as stated, without the publish after the first call, is refuted by
`c1_counterexample`.) -/
theorem c1_inc_sequence_with_publish (s : LoopState) (k : KeyType) (limit ttl t0 u : Int)
    (n : Nat) (hn : 1 ≤ n) (hnl : (n : Int) ≤ limit)
    (habs : s.map.read k = [])
    (hlog : ∀ op ∈ s.map.oplog, keyOf op ≠ k)
    (hque : ∀ p, (k, p) ∉ s.queue)
    (hu : u ≤ t0 + ttl * 1000) :
    (Store.inc_below_limit s.map k limit ttl t0).1 = .ok () ∧
    Store.get (loopIter u { s with map := (Store.inc_below_limit s.map k limit ttl t0).2 }).map k
      = .ok (some ⟨1, some (t0 + ttl * 1000)⟩) ∧
    (∀ r ∈ (incIter
        (loopIter u { s with map := (Store.inc_below_limit s.map k limit ttl t0).2 }).map
        k limit ttl t0 (n - 1)).1, r = .ok ()) ∧
    Store.get (incIter
        (loopIter u { s with map := (Store.inc_below_limit s.map k limit ttl t0).2 }).map
        k limit ttl t0 (n - 1)).2 k = .ok (some ⟨(n : Int), some (t0 + ttl * 1000)⟩) := by
  have hck : containsKey s.map k = false := by simp [containsKey, habs]
  have hfirst : Store.inc_below_limit s.map k limit ttl t0
      = (.ok (), { s.map with oplog := s.map.oplog ++ [.add k ⟨1, some (t0 + ttl * 1000)⟩] }) := by
    simp [Store.inc_below_limit, Store.get, habs, Store.insert, hck]
  have hstate : ({ s with map := (Store.inc_below_limit s.map k limit ttl t0).2 } : LoopState)
      = { map := { s.map with oplog := s.map.oplog ++ [.add k ⟨1, some (t0 + ttl * 1000)⟩] },
          queue := s.queue } := by
    rw [hfirst]
  obtain ⟨hra, hrb⟩ := loopIter_read_of_last_add s.map s.queue k ⟨1, some (t0 + ttl * 1000)⟩
    (t0 + ttl * 1000) u rfl hu habs hlog hque
  have hread1 : (loopIter u
      { s with map := (Store.inc_below_limit s.map k limit ttl t0).2 }).map.read k
      = [⟨1, some (t0 + ttl * 1000)⟩] := by
    rw [hstate]
    exact hra
  have hlog1 : (loopIter u
      { s with map := (Store.inc_below_limit s.map k limit ttl t0).2 }).map.oplog = [] := by
    rw [hstate]
    exact hrb
  obtain ⟨hall, hread2, _⟩ := incIter_spec k limit ttl t0 (some (t0 + ttl * 1000)) (n - 1)
    (loopIter u { s with map := (Store.inc_below_limit s.map k limit ttl t0).2 }).map 1
    hread1 hlog1 (by omega)
  refine ⟨by rw [hfirst], ?_, hall, ?_⟩
  · simp [Store.get, hread1]
  · have harith : (1 : Int) + ((n - 1 : Nat) : Int) = (n : Int) := by omega
    simp [Store.get, hread2, harith]

/-- C1 counterexample: with no publish between the calls, two increments on a
fresh key under limit 2 both return `Ok` (the second also takes the
insert path, because the first call's record is still pending), yet the stored
count never reaches 2: `get` returns `None` before the publish, and after a
publish the key's bag holds two count-1 records of which `get_one` returns
the first. -/
theorem c1_counterexample :
    (Store.inc_below_limit initState.map "a" 2 10 0).1 = .ok () ∧
    (Store.inc_below_limit
      (Store.inc_below_limit initState.map "a" 2 10 0).2 "a" 2 10 0).1 = .ok () ∧
    Store.get (Store.inc_below_limit
      (Store.inc_below_limit initState.map "a" 2 10 0).2 "a" 2 10 0).2 "a" = .ok none ∧
    Store.get (refresh (Store.inc_below_limit
      (Store.inc_below_limit initState.map "a" 2 10 0).2 "a" 2 10 0).2) "a"
      = .ok (some ⟨1, some 10000⟩) :=
  ⟨by decide, by decide, by decide, by decide⟩

/-- C1 witness: concrete run with `n = limit = 2`, `ttl = 10` s, calls at time
0 and publish at time 0. -/
theorem c1_witness :
    (1 : Nat) ≤ 2 ∧ ((2 : Nat) : Int) ≤ 2 ∧ initState.map.read "a" = [] ∧
    ((Store.inc_below_limit initState.map "a" 2 10 0).1 = .ok () ∧
      Store.get (loopIter 0
        { initState with map := (Store.inc_below_limit initState.map "a" 2 10 0).2 }).map "a"
        = .ok (some ⟨1, some (0 + 10 * 1000)⟩) ∧
      (∀ r ∈ (incIter (loopIter 0
        { initState with map := (Store.inc_below_limit initState.map "a" 2 10 0).2 }).map
        "a" 2 10 0 (2 - 1)).1, r = .ok ()) ∧
      Store.get (incIter (loopIter 0
        { initState with map := (Store.inc_below_limit initState.map "a" 2 10 0).2 }).map
        "a" 2 10 0 (2 - 1)).2 "a" = .ok (some ⟨((2 : Nat) : Int), some (0 + 10 * 1000)⟩)) :=
  ⟨by decide, by decide, rfl,
    c1_inc_sequence_with_publish initState "a" 2 10 0 0 2 (by decide) (by decide) rfl
      (fun op hop => absurd hop (List.not_mem_nil op))
      (fun p hp => absurd hp (List.not_mem_nil (("a", p) : KeyType × Int)))
      (by decide)⟩

/-- C5 (amended): after any sequence of public operations in which each
operation is immediately followed by an eviction-loop iteration (so every
mutation is published before the next call), every key of the published map
holds at most one Counter Record.  (The unmodified claim is refuted by
`c5_counterexample`: without the interleaved publish a key can end up with two
records.) -/
theorem c5_unique_record_with_publish (l : List (Op × Int)) (k : KeyType) :
    ((runPub initState l).map.read k).length ≤ 1 :=
  (storeInv_runPub l initState storeInv_initState).2 k

/-- C5 counterexample: running `inc "a"`, `inc "a"`, then one eviction-loop
iteration from the initial state leaves the key `"a"` mapped to two Counter
Records, contradicting the claim that no key ever maps to two or more
records. -/
theorem c5_counterexample :
    (runRaw initState [.opInc "a" 2 10 0, .opInc "a" 2 10 0, .opIter 0]).map.read "a"
      = [⟨1, some 10000⟩, ⟨1, some 10000⟩] ∧
    2 ≤ ((runRaw initState [.opInc "a" 2 10 0, .opInc "a" 2 10 0, .opIter 0]).map.read "a").length :=
  ⟨by decide, by decide⟩
